import Mathlib

/-!
# Marshalling layer of `nativetypes.go`

A shallow embedding of the Go source `src/nativetypes.go` (package `solana`):
the compact-u16 ("short vec") codec, the base58 identifier constructors, the
`U64` JSON codec and the byte-stream adapter, followed by theorems about them.

Conventions of the embedding

* A Go `byte` is a `Fin 256`; a `[]byte` is a `List Byte`; a `[N]byte` is a
  list of bytes of length `N` (`FixedBytes N`).
* A Go result `(value, err)` is a pair whose second component is an
  `Option Error`, `none` standing for `nil`.
* `uint64` and `uint` values (on a 64-bit platform) are natural numbers reduced
  modulo `2 ^ 64` wherever Go would wrap.
* A finite byte source (an `io.ByteReader` over bytes held in memory, such as
  `bytes.Reader`) is the list of the bytes it still has to deliver; reading past
  its end yields `io.EOF`.
-/

namespace Solana

/-- A Go `byte`. -/
abbrev Byte := Fin 256

/-- The Go `error` values that the embedded functions can return. -/
inductive Error where
  /-- The sentinel `io.EOF`. -/
  | EOF
  /-- The package variable `shortVecOverflow`. -/
  | shortVecOverflow
  /-- The value `fmt.Errorf("invalid length, expected %d, got %d", ...)`. -/
  | invalidLength (expected got : Nat)
  /-- An error reported by the base58 library. -/
  | base58 (msg : String)
  /-- The value `errors.New("empty value")`. -/
  | emptyValue
  /-- The error of `strconv.ParseUint` on text that is no number (`strconv.ErrSyntax`). -/
  | parseInvalid
  /-- The error of `strconv.ParseUint` on a number beyond 64 bits (`strconv.ErrRange`). -/
  | parseRange
  /-- An error reported by `encoding/json`. -/
  | json (msg : String)
  deriving DecidableEq, Repr

/-! ## Compact-u16 -/

/-- The type `ShortVec`, a Go `uint16`. -/
abbrev ShortVec := Fin 65536

/-- The method `ShortVec.Pack(p, opt)`: the body is `return 0, nil`; the buffer `p` is
not written. The result is the buffer after the call, the returned count and
the returned error. -/
def ShortVec.Pack (_v : ShortVec) (p : List Byte) : List Byte × Nat × Option Error :=
  (p, 0, none)

/-- The bytes a `Pack` call reports as written: the first `n` bytes of the
buffer, `n` being the count it returns. -/
def ShortVec.packed (v : ShortVec) (p : List Byte) : List Byte :=
  let r := ShortVec.Pack v p
  r.1.take r.2.1

/-- The loop of `readShortVec`, started with accumulator `x`, shift `s` and
counter `i` on the bytes `r` still to be read.

`x` is a `uint64` and `s` a `uint`, both reduced modulo `2 ^ 64`. The counter `i` is
a Go `int` that counts the bytes read so far; a source held in memory has fewer
than `2 ^ 63` bytes, so `i` never wraps and is a natural number here. -/
def readShortVecLoop : List Byte → Nat → Nat → Nat → Nat × Option Error
  | [], x, _, _ => (x, some Error.EOF)
  | b :: r, x, s, i =>
    if b.val < 0x80 then
      if i > 4 ∨ (i = 4 ∧ b.val > 1) then
        (x, some Error.shortVecOverflow)
      else
        (x ||| ((b.val <<< s) % 2 ^ 64), none)
    else
      readShortVecLoop r (x ||| (((b.val &&& 0x7f) <<< s) % 2 ^ 64)) ((s + 7) % 2 ^ 64) (i + 1)

/-- The function `readShortVec(r)` on a finite byte source. -/
def readShortVec (r : List Byte) : Nat × Option Error :=
  readShortVecLoop r 0 0 0

/-- Bit 7 of a byte, the continuation bit of the compact-u16 wire format. -/
def continuation (b : Byte) : Bool :=
  b.val &&& 0x80 != 0

/-- The `Encode` algorithm as the specification words it (section 4.4): take the
low seven bits of the remainder, shift the remainder right by seven, emit the
bits as the last byte when nothing remains and with bit 7 set otherwise. -/
def specEncode (rem : Nat) : List Byte :=
  let elem := rem &&& 0x7F
  let rem1 := rem >>> 7
  if _h : rem1 = 0 then
    [Fin.ofNat elem]
  else
    Fin.ofNat (elem ||| 0x80) :: specEncode rem1
termination_by rem
decreasing_by
  simp only [Nat.shiftRight_eq_div_pow] at *
  omega

/-- The OR of `(b_k & 0x7F) << (7 * k)` over the bytes `b_k` of a sequence, `k` being the
index of the byte. -/
def groupsOr (bs : List Byte) : Nat :=
  bs.enum.foldl (fun acc kb => acc ||| ((kb.2.val &&& 0x7F) <<< (7 * kb.1))) 0

/-- The same OR as the loop of `readShortVec` computes it in 64-bit registers: the
shift count and every shifted group are reduced modulo `2 ^ 64`. -/
def groupsOr64 (bs : List Byte) : Nat :=
  bs.enum.foldl
    (fun acc kb => acc ||| (((kb.2.val &&& 0x7F) <<< ((7 * kb.1) % 2 ^ 64)) % 2 ^ 64)) 0

/-- Modelled from the spec: `encoding/binary` is not part of the sources. The loop
of `binary.PutUvarint(buf, x)` from index `i`: while `x >= 0x80` it stores
`byte(x) | 0x80` and shifts `x` right by seven, then it stores `byte(x)` and returns the
number of bytes stored. The result is the buffer and that number, `none` when an
index leaves the buffer (a Go panic). -/
def putUvarintLoop (buf : List Byte) (x i : Nat) : Option (List Byte × Nat) :=
  if _h : x ≥ 0x80 then
    if i < buf.length then
      putUvarintLoop (buf.set i (Fin.ofNat ((x % 256) ||| 0x80))) (x >>> 7) (i + 1)
    else
      none
  else
    if i < buf.length then
      some (buf.set i (Fin.ofNat x), i + 1)
    else
      none
termination_by x
decreasing_by
  simp only [Nat.shiftRight_eq_div_pow]
  omega

/-- The method `ShortVec.Size(opt)`: the count that `binary.PutUvarint` returns on a
fresh `[8]byte` buffer and `uint64(*v)`. -/
def ShortVec.Size (v : ShortVec) : Option Nat :=
  (putUvarintLoop (List.replicate 8 0) v.val 0).map Prod.snd


/-- The state of a running `ShortVec.Unpack` call: the receiver `*v`, the bytes the reader
`r` still holds, and the locals `l` and `s`. -/
structure UnpackState where
  /-- The receiver `*v`. -/
  v : ShortVec
  /-- The bytes the reader still holds. -/
  r : List Byte
  /-- The local `l`. -/
  l : Int
  /-- The local `s`. -/
  s : Int

/-- The loop `for { }` of `ShortVec.Unpack`, run for at most `fuel` iterations. Its body
holds no statement (the decoding steps are comments only), so an iteration
changes nothing and no iteration leaves the loop. The result is `none` when the
loop is still running after `fuel` iterations. -/
def ShortVec.unpackLoop : Nat → UnpackState → Option UnpackState
  | 0, _ => none
  | fuel + 1, st => ShortVec.unpackLoop fuel st

/-- The method `ShortVec.Unpack(r, length, opt)`, its loop run for at most `fuel`
iterations: `l` and `s` start at zero, and `return nil` follows the loop. The result
is the receiver, the bytes left in the reader and the returned error, `none`
when the call has not returned within `fuel` iterations. -/
def ShortVec.Unpack (fuel : Nat) (v : ShortVec) (r : List Byte) :
    Option (ShortVec × List Byte × Option Error) :=
  match ShortVec.unpackLoop fuel ⟨v, r, 0, 0⟩ with
  | none => none
  | some st => some (st.v, st.r, none)

/-! ## Byte-stream adapter -/

/-- The outcome of one call `Read(p)` of an `io.Reader`: the buffer after the call,
the count `n` and the error. -/
structure ReadResult where
  /-- The buffer `p` after the call. -/
  buf : List Byte
  /-- The number of bytes delivered. -/
  n : Nat
  /-- The error returned. -/
  err : Option Error

/-- An `io.Reader` with internal state `σ`: its method `Read(p)`. -/
abbrev Reader (σ : Type) := σ → List Byte → ReadResult × σ

/-- The method `ByteWrapper.ReadByte()` over the embedded reader `w` in state `st`: the
returned byte, the returned error and the reader's next state. The count that
`Read` returns is discarded, as in the source. -/
def ByteWrapper.ReadByte {σ : Type} (w : Reader σ) (st : σ) : (Byte × Option Error) × σ :=
  let b : List Byte := [0]
  let res := w st b
  ((res.1.buf.headD 0, res.1.err), res.2)

/-- A reader over bytes held in memory, as `bytes.Reader`: at the end it delivers
0 bytes and `io.EOF`, otherwise it fills the front of `p`. -/
def bytesReader : Reader (List Byte) := fun st p =>
  if st = [] then
    (⟨p, 0, some Error.EOF⟩, st)
  else
    (⟨st.take p.length ++ p.drop st.length, min p.length st.length, none⟩, st.drop p.length)

/-- A reader that has nothing to deliver yet: its `Read` returns 0 and a nil error,
which the `io.Reader` contract allows. -/
def idleReader : Reader Unit := fun st p => (⟨p, 0, none⟩, st)

/-- A reader that has nothing to deliver yet and uses the buffer as scratch space:
its `Read` leaves `7F` in every byte of `p` and returns 0 and a nil error, which the
`io.Reader` contract allows as well. -/
def scratchReader : Reader Unit := fun st p => (⟨p.map fun _ => 0x7F, 0, none⟩, st)

/-! ## Base58 identifiers -/

/-- The two functions of the base58 library `github.com/mr-tron/base58` that the
source calls. The library is not part of the sources, so the functions that
call it take it as a parameter. `Decode` returns the Go pair `([]byte, error)`. -/
structure Base58Lib where
  /-- The library function `base58.Encode`. -/
  Encode : List Byte → String
  /-- The library function `base58.Decode`. -/
  Decode : String → List Byte × Option Error

/-- A Go array `[n]byte`. -/
abbrev FixedBytes (n : Nat) := { l : List Byte // l.length = n }

/-- The zero value of `[n]byte`. -/
def FixedBytes.zero (n : Nat) : FixedBytes n :=
  ⟨List.replicate n 0, List.length_replicate n 0⟩

/-- The builtin `copy(dst[:], src)` on an array `dst`: the first
`min(n, len(src))` bytes of `dst` are overwritten by those of `src`, the others
stay. -/
def FixedBytes.copy {n : Nat} (dst : FixedBytes n) (src : List Byte) : FixedBytes n :=
  ⟨src.take n ++ dst.val.drop src.length, by
    have h := dst.property
    simp only [List.length_append, List.length_take, List.length_drop, h]
    omega⟩

/-- The type `Signature`, declared in the source as `[32]byte`. -/
structure Signature where
  /-- The bytes of the array. -/
  bytes : FixedBytes 32
  deriving DecidableEq

/-- The type `PublicKey`, declared in the source as `[32]byte`. -/
structure PublicKey where
  /-- The bytes of the array. -/
  bytes : FixedBytes 32
  deriving DecidableEq

/-- The zero value of `Signature`. -/
def Signature.zero : Signature := ⟨FixedBytes.zero 32⟩

/-- The zero value of `PublicKey`. -/
def PublicKey.zero : PublicKey := ⟨FixedBytes.zero 32⟩

/-- The function `SignatureFromBase58(in)`. The named result `out` starts as the
zero value and is returned as it stands on both error paths. -/
def SignatureFromBase58 (lib : Base58Lib) (inp : String) : Signature × Option Error :=
  let out := Signature.zero
  match lib.Decode inp with
  | (_, some err) => (out, some err)
  | (val, none) =>
    if val.length ≠ 64 then
      (out, some (Error.invalidLength 64 val.length))
    else
      (⟨out.bytes.copy val⟩, none)

/-- The method `Signature.String()`. -/
def Signature.String (lib : Base58Lib) (p : Signature) : String :=
  lib.Encode p.bytes.val

/-- The function `PublicKeyFromBase58(in)`. The named result `out` starts as the
zero value and is returned as it stands on both error paths. -/
def PublicKeyFromBase58 (lib : Base58Lib) (inp : String) : PublicKey × Option Error :=
  let out := PublicKey.zero
  match lib.Decode inp with
  | (_, some err) => (out, some err)
  | (val, none) =>
    if val.length ≠ 32 then
      (out, some (Error.invalidLength 32 val.length))
    else
      (⟨out.bytes.copy val⟩, none)

/-- The method `PublicKey.String()`. -/
def PublicKey.String (lib : Base58Lib) (p : PublicKey) : String :=
  lib.Encode p.bytes.val

/-! ### A reference base58 codec

The theorems about the identifier constructors hold for every library whose
`Decode` inverts its `Encode` on 32-byte inputs. The codec below, base58 over the
Bitcoin alphabet as section 6 of the specification names it, is such a
library; it instantiates the parameter in the witnesses. -/

/-- The Bitcoin base58 alphabet. -/
def b58Alphabet : List Char :=
  "123456789ABCDEFGHJKLMNPQRSTUVWXYZabcdefghijkmnopqrstuvwxyz".toList

/-- The character of a base58 digit. -/
def b58Char (d : Nat) : Char :=
  b58Alphabet.getD d '1'

/-- The base58 digit of a character of the alphabet. -/
def b58Digit (c : Char) : Nat :=
  b58Alphabet.indexOf c

/-- Base58 text of a byte sequence: one `1` for every leading zero byte, then the
base-58 digits, most significant first, of the big-endian number that the
remaining bytes spell. -/
def b58EncodeChars : List Byte → List Char
  | [] => []
  | b :: bs =>
    if b = 0 then
      '1' :: b58EncodeChars bs
    else
      (Nat.digits 58 (Nat.ofDigits 256 ((b :: bs).reverse.map Fin.val))).reverse.map b58Char

/-- Bytes of a base58 text over the alphabet: one zero byte for every leading
`1`, then the big-endian bytes of the number that the remaining digits spell. -/
def b58DecodeChars : List Char → List Byte
  | [] => []
  | c :: cs =>
    if c = '1' then
      0 :: b58DecodeChars cs
    else
      (Nat.digits 256 (Nat.ofDigits 58 ((c :: cs).reverse.map b58Digit))).reverse.map Fin.ofNat

/-- Modelled from the spec: the base58 library is not part of the sources; this
is base58 over the Bitcoin alphabet without checksum (section 6), whose
`Decode` rejects the empty text and any character outside the alphabet. -/
def bitcoinBase58 : Base58Lib where
  Encode := fun bin => String.mk (b58EncodeChars bin)
  Decode := fun str =>
    if str.data = [] then
      ([], some (Error.base58 "zero length string"))
    else if ∀ c ∈ str.data, c ∈ b58Alphabet then
      (b58DecodeChars str.data, none)
    else
      ([], some (Error.base58 "invalid base58 digit"))

/-- A sample public key, the bytes `00 01 02 ... 1F`. -/
def sampleKey : PublicKey :=
  ⟨⟨(List.range 32).map Fin.ofNat, by decide⟩⟩

/-- A sample signature, the bytes `00 01 02 ... 1F`. -/
def sampleSignature : Signature :=
  ⟨⟨(List.range 32).map Fin.ofNat, by decide⟩⟩

/-- A sample of 64 bytes, `00 01 02 ... 3F`. -/
def sampleBytes64 : List Byte :=
  (List.range 64).map Fin.ofNat

/-- The same 64 bytes with the last one replaced by `FF`. -/
def sampleBytes64Alt : List Byte :=
  (List.range 63).map Fin.ofNat ++ [0xFF]

/-! ## Bounded numerics -/

/-- The type `U64`, a Go `uint64`. -/
abbrev U64 := Fin (2 ^ 64)

/-- The base-10 digits of a number as ASCII bytes, most significant first, the
single digit `0` for zero. -/
def base10 (n : Nat) : List Byte :=
  if n = 0 then [0x30] else (Nat.digits 10 n).reverse.map fun d => Fin.ofNat (0x30 + d)

/-- Modelled from the spec: `encoding/json` is not part of the sources. The call
`json.Marshal(uint64(i))` yields a bare JSON number, the base-10 digits of the
integer, and does not fail. -/
def jsonMarshalUint64 (n : Nat) : List Byte × Option Error :=
  (base10 n, none)

/-- The method `U64.MarshalJSON()`. The byte `0x22` is the double quote. -/
def U64.MarshalJSON (i : U64) : List Byte × Option Error :=
  if i.val > 0xffffffff then
    match jsonMarshalUint64 i.val with
    | (_, some err) => ([], some err)
    | (encodedInt, none) =>
      let data := [0x22] ++ encodedInt
      let data := data ++ [0x22]
      (data, none)
  else
    jsonMarshalUint64 i.val

/-- The conversion `U64(x)` of a number to the 64-bit type. -/
def U64.ofNat (x : Nat) : U64 :=
  ⟨x % 2 ^ 64, Nat.mod_lt x (by decide)⟩

/-- Modelled from the spec: `strconv` is not part of the sources. The loop of
`strconv.ParseUint(s, 10, 64)` over the bytes of `s`, started with the number `n` read
so far: a byte that is no decimal digit gives the invalid-text error and 0; a digit
that would carry the number beyond 64 bits gives the range error and `2 ^ 64 - 1`
(the cutoff is `maxUint64 / 10 + 1`). -/
def parseUintLoop : List Byte → Nat → Nat × Option Error
  | [], n => (n, none)
  | c :: cs, n =>
    if 0x30 ≤ c.val ∧ c.val ≤ 0x39 then
      if n ≥ (2 ^ 64 - 1) / 10 + 1 then
        (2 ^ 64 - 1, some Error.parseRange)
      else
        let n10 := (n * 10) % 2 ^ 64
        let n1 := (n10 + (c.val - 0x30)) % 2 ^ 64
        if n1 < n10 ∨ n1 > 2 ^ 64 - 1 then
          (2 ^ 64 - 1, some Error.parseRange)
        else
          parseUintLoop cs n1
    else
      (0, some Error.parseInvalid)

/-- The call `strconv.ParseUint(s, 10, 64)`: the empty text is invalid. -/
def ParseUint (s : List Byte) : Nat × Option Error :=
  if s = [] then (0, some Error.parseInvalid) else parseUintLoop s 0

/-- The two uses of `json.Unmarshal` in the source. The library `encoding/json` is not
part of the sources, so `U64.UnmarshalJSON` takes it as a parameter. Each function
gives the value of the target after the call, started from its zero value, and
the returned error. -/
structure JsonLib where
  /-- The call `json.Unmarshal(data, &s)` with `s` a string. -/
  UnmarshalString : List Byte → List Byte × Option Error
  /-- The call `json.Unmarshal(data, &v)` with `v` a `uint64`. -/
  UnmarshalUint64 : List Byte → Nat × Option Error

/-- The method `U64.UnmarshalJSON(data)` on the receiver `*i`: the receiver after the call
and the returned error. The byte `0x22` is the double quote. -/
def U64.UnmarshalJSON (lib : JsonLib) (i : U64) (data : List Byte) : U64 × Option Error :=
  match data with
  | [] => (i, some Error.emptyValue)
  | c :: _ =>
    if c = 0x22 then
      match lib.UnmarshalString data with
      | (_, some err) => (i, some err)
      | (s, none) =>
        match ParseUint s with
        | (_, some err) => (i, some err)
        | (val, none) => (U64.ofNat val, none)
    else
      match lib.UnmarshalUint64 data with
      | (_, some err) => (i, some err)
      | (v, none) => (U64.ofNat v, none)

/-- Modelled from the spec: `encoding/json` is not part of the sources; this is a
decoder for the fragment of JSON that the numeric codec writes, string literals
without escape sequences and unsigned integer literals without sign, fraction
or exponent. It rejects everything else. -/
def plainJson : JsonLib where
  UnmarshalString := fun data =>
    match data with
    | [] => ([], some (Error.json "unexpected end of JSON input"))
    | q :: rest =>
      if q = 0x22 ∧ rest.getLast? = some 0x22 ∧
          ∀ c ∈ rest.dropLast, 0x20 ≤ c.val ∧ c.val < 0x80 ∧ c.val ≠ 0x22 ∧ c.val ≠ 0x5C then
        (rest.dropLast, none)
      else
        ([], some (Error.json "not a plain string literal"))
  UnmarshalUint64 := fun data =>
    if data ≠ [] ∧ (∀ c ∈ data, 0x30 ≤ c.val ∧ c.val ≤ 0x39) ∧
        (data.head? = some 0x30 → data.length = 1) then
      match ParseUint data with
      | (v, none) => (v, none)
      | (_, some _) =>
        (0, some (Error.json "cannot unmarshal number into Go value of type uint64"))
    else
      (0, some (Error.json "not an unsigned integer literal"))

/-! ## Theorems: compact-u16 -/

/-- Masking with `0x7F` keeps the remainder modulo 128. -/
theorem land_7f (n : Nat) : n &&& 0x7F = n % 128 :=
  Nat.and_pow_two_sub_one_eq_mod n 7

/-- Setting bit 7 of a seven-bit value adds 128. -/
theorem lor_80 (a : Nat) (h : a < 128) : a ||| 0x80 = a + 128 := by
  have := Nat.mul_add_lt_is_or (show a < 2 ^ 7 from h) 1
  simp only [Nat.reducePow, Nat.mul_one] at this
  rw [Nat.lor_comm, ← this]
  omega

/-- An OR with a value shifted past every set bit of `x` is a sum. -/
theorem lor_shiftLeft (x b s : Nat) (h : x < 2 ^ s) : x ||| b <<< s = x + b * 2 ^ s := by
  have := Nat.mul_add_lt_is_or h b
  rw [Nat.shiftLeft_eq, Nat.lor_comm, Nat.mul_comm b, ← this]
  omega

/-- One iteration of the `specEncode` loop, in arithmetic form. -/
theorem specEncode_eq (n : Nat) :
    specEncode n =
      if n / 128 = 0 then [Fin.ofNat (n % 128)]
      else Fin.ofNat (n % 128 + 128) :: specEncode (n / 128) := by
  rw [specEncode]
  have h1 : n >>> 7 = n / 128 := Nat.shiftRight_eq_div_pow n 7
  have h2 : n % 128 < 128 := Nat.mod_lt _ (by decide)
  simp only [land_7f, h1, lor_80 _ h2]
  split <;> rfl

/-- The conversion `byte(k)` keeps a value below 256. -/
theorem ofNat_val (k : Nat) (h : k < 256) : ((Fin.ofNat k : Byte)).val = k := by
  simp [Fin.ofNat, Nat.mod_eq_of_lt h]

/-- The loop on a byte with bit 7 set: accumulate and go on. -/
theorem readShortVecLoop_cont (b : Byte) (r : List Byte) (x s i : Nat) (h : 128 ≤ b.val) :
    readShortVecLoop (b :: r) x s i =
      readShortVecLoop r (x ||| ((b.val &&& 0x7f) <<< s) % 2 ^ 64) ((s + 7) % 2 ^ 64) (i + 1) := by
  have h1 : ¬ b.val < 0x80 := by omega
  simp only [readShortVecLoop, h1, if_false]

/-- The loop on a byte below `0x80` read at index at most 3: success. -/
theorem readShortVecLoop_last (b : Byte) (r : List Byte) (x s i : Nat) (h : b.val < 128)
    (hi : i ≤ 3) :
    readShortVecLoop (b :: r) x s i = (x ||| (b.val <<< s) % 2 ^ 64, none) := by
  have h1 : b.val < 0x80 := h
  have h2 : ¬ (i > 4 ∨ (i = 4 ∧ b.val > 1)) := by omega
  simp only [readShortVecLoop, h1, h2, if_true, if_false]

/-- The accumulation step of the decoder when nothing overflows 64 bits. -/
theorem lor_shiftLeft_mod (x b s : Nat) (hx : x < 2 ^ s) (hb : b * 2 ^ s < 2 ^ 64) :
    x ||| (b <<< s) % 2 ^ 64 = x + b * 2 ^ s := by
  rw [Nat.shiftLeft_eq, Nat.mod_eq_of_lt hb, ← Nat.shiftLeft_eq, lor_shiftLeft x b s hx,
    Nat.shiftLeft_eq]

/-- The continuation bit of a byte is set exactly when the byte is at least `0x80`,
the test `readShortVec` makes. -/
theorem continuation_iff (b : Byte) : continuation b = true ↔ 128 ≤ b.val := by
  revert b
  set_option maxRecDepth 100000 in decide

/-- From counter 5 on, the loop can only end in an error. -/
theorem readShortVecLoop_error_of_five_le (r : List Byte) :
    ∀ x s i : Nat, 5 ≤ i →
      (readShortVecLoop r x s i).2 = some Error.shortVecOverflow ∨
      (readShortVecLoop r x s i).2 = some Error.EOF := by
  induction r with
  | nil => intro x s i _; right; rfl
  | cons b r ih =>
    intro x s i hi
    by_cases hb : b.val < 0x80
    · left
      have h2 : i > 4 ∨ (i = 4 ∧ b.val > 1) := Or.inl (by omega)
      simp only [readShortVecLoop, hb, h2, if_true]
    · rw [readShortVecLoop_cont b r x s i (by omega)]
      exact ih _ _ _ (by omega)

/-- A source that only holds bytes with bit 7 set runs the loop into end of input. -/
theorem readShortVecLoop_eof (r : List Byte) :
    ∀ x s i : Nat, (∀ b ∈ r, continuation b = true) →
      (readShortVecLoop r x s i).2 = some Error.EOF := by
  induction r with
  | nil => intro x s i _; rfl
  | cons b r ih =>
    intro x s i h
    have hb : 128 ≤ b.val := (continuation_iff b).1 (h b (List.mem_cons_self b r))
    rw [readShortVecLoop_cont b r x s i hb]
    exact ih _ _ _ (fun c hc => h c (List.mem_cons_of_mem b hc))

/-- Claim C1 (the code departs from it): `ShortVec.Pack` writes nothing and returns
count 0 for the value 128 and a fresh two-byte buffer, so the bytes it reports
as written are empty and `readShortVec` fails on them with end of input; read as a
whole, the untouched buffer decodes to 0, not to 128. -/
theorem Pack_readShortVec_128 :
    ShortVec.Pack 128 [0, 0] = ([0, 0], 0, none) ∧
    ShortVec.packed 128 [0, 0] = [] ∧
    readShortVec (ShortVec.packed 128 [0, 0]) = (0, some Error.EOF) ∧
    readShortVec [0, 0] = (0, none) := by
  decide

/-- Claim C2 (the code departs from it): for each of the six boundary values and
every buffer, `ShortVec.Pack` leaves the buffer as it was and returns count 0 with
a nil error, so none of the listed byte sequences is written. -/
theorem Pack_boundary_values (p : List Byte) :
    ShortVec.Pack 0 p = (p, 0, none) ∧ ShortVec.Pack 127 p = (p, 0, none) ∧
    ShortVec.Pack 128 p = (p, 0, none) ∧ ShortVec.Pack 16383 p = (p, 0, none) ∧
    ShortVec.Pack 16384 p = (p, 0, none) ∧ ShortVec.Pack 65535 p = (p, 0, none) :=
  ⟨rfl, rfl, rfl, rfl, rfl, rfl⟩

/-- Claim C3: for every n in [0, 65535], `readShortVec` applied to the bytes that the
specification's Encode algorithm produces for n returns exactly n and no error. -/
theorem readShortVec_specEncode (n : Nat) (h : n ≤ 65535) :
    readShortVec (specEncode n) = (n, none) := by
  unfold readShortVec
  have hm : ∀ k, k % 128 < 256 := fun k => by omega
  have hm2 : ∀ k, k % 128 + 128 < 256 := fun k => by omega
  have hl : ∀ k, (k % 128 + 128) % 128 = k % 128 := fun k => by omega
  have s7 : (0 + 7) % 2 ^ 64 = 7 := rfl
  have s14 : (7 + 7) % 2 ^ 64 = 14 := rfl
  rw [specEncode_eq]
  split
  · rw [readShortVecLoop_last _ _ _ _ _ (by rw [ofNat_val _ (hm n)]; omega) (by omega)]
    rw [ofNat_val _ (hm n), lor_shiftLeft_mod _ _ _ (by decide) (by omega)]
    simp only [Prod.mk.injEq, and_true]
    omega
  · rw [readShortVecLoop_cont _ _ _ _ _ (by rw [ofNat_val _ (hm2 n)]; omega)]
    rw [ofNat_val _ (hm2 n), land_7f, hl, lor_shiftLeft_mod _ _ _ (by decide) (by omega), s7]
    rw [specEncode_eq]
    split
    · rw [readShortVecLoop_last _ _ _ _ _ (by rw [ofNat_val _ (hm _)]; omega) (by omega)]
      rw [ofNat_val _ (hm _), lor_shiftLeft_mod _ _ _ (by omega) (by omega)]
      simp only [Prod.mk.injEq, and_true]
      omega
    · rw [readShortVecLoop_cont _ _ _ _ _ (by rw [ofNat_val _ (hm2 _)]; omega)]
      rw [ofNat_val _ (hm2 _), land_7f, hl, lor_shiftLeft_mod _ _ _ (by omega) (by omega), s14]
      rw [specEncode_eq, if_pos (by omega)]
      rw [readShortVecLoop_last _ _ _ _ _ (by rw [ofNat_val _ (hm _)]; omega) (by omega)]
      rw [ofNat_val _ (hm _), lor_shiftLeft_mod _ _ _ (by omega) (by omega)]
      simp only [Prod.mk.injEq, and_true]
      omega

/-- Witness of C3 at the largest 16-bit value, encoded as `FF FF 03`. -/
theorem readShortVec_specEncode_witness :
    65535 ≤ 65535 ∧ readShortVec (specEncode 65535) = (65535, none) :=
  ⟨by decide, readShortVec_specEncode 65535 (by decide)⟩

/-- Claim C4 (the code departs from it): the three bytes `FF FF 7F` are accepted
without error and decode to 2097151, a value above 65535. -/
theorem readShortVec_accepts_above_u16 :
    readShortVec [0xFF, 0xFF, 0x7F] = (2097151, none) ∧ 65535 < (readShortVec [0xFF, 0xFF, 0x7F]).1 := by
  decide

/-- Claim C5: for every finite byte stream whose first 6 bytes all have bit 7 set,
`readShortVec` returns an error, the overflow error or end of input, and never a
successful value. -/
theorem readShortVec_six_continuation (r : List Byte) (hlen : 6 ≤ r.length)
    (hcont : ∀ b ∈ r.take 6, continuation b = true) :
    (readShortVec r).2 = some Error.shortVecOverflow ∨ (readShortVec r).2 = some Error.EOF := by
  match r, hlen with
  | b0 :: b1 :: b2 :: b3 :: b4 :: b5 :: rest, _ =>
    have h : ∀ b ∈ [b0, b1, b2, b3, b4, b5], 128 ≤ b.val := fun b hb =>
      (continuation_iff b).1 (hcont b (by simpa using hb))
    unfold readShortVec
    rw [readShortVecLoop_cont _ _ _ _ _ (h b0 (by simp)),
      readShortVecLoop_cont _ _ _ _ _ (h b1 (by simp)),
      readShortVecLoop_cont _ _ _ _ _ (h b2 (by simp)),
      readShortVecLoop_cont _ _ _ _ _ (h b3 (by simp)),
      readShortVecLoop_cont _ _ _ _ _ (h b4 (by simp))]
    exact readShortVecLoop_error_of_five_le _ _ _ _ (by omega)

/-- Witness of C5: six continuation bytes followed by a terminating byte give the
overflow error. -/
theorem readShortVec_six_continuation_witness :
    6 ≤ ([0x80, 0x80, 0x80, 0x80, 0x80, 0x80, 0x00] : List Byte).length ∧
    ((readShortVec [0x80, 0x80, 0x80, 0x80, 0x80, 0x80, 0x00]).2 = some Error.shortVecOverflow ∨
      (readShortVec [0x80, 0x80, 0x80, 0x80, 0x80, 0x80, 0x00]).2 = some Error.EOF) :=
  ⟨by decide,
    readShortVec_six_continuation [0x80, 0x80, 0x80, 0x80, 0x80, 0x80, 0x00] (by decide)
      (by set_option maxRecDepth 4000 in decide)⟩

/-- Claim C6: for every finite byte source in which no byte has bit 7 clear (the
empty source included), `readShortVec` fails with end of input. -/
theorem readShortVec_exhausted (r : List Byte) (h : ∀ b ∈ r, continuation b = true) :
    (readShortVec r).2 = some Error.EOF :=
  readShortVecLoop_eof r 0 0 0 h

/-- Witness of C6 on the two-byte source `80 FF`. -/
theorem readShortVec_exhausted_witness :
    (readShortVec [0x80, 0xFF]).2 = some Error.EOF :=
  readShortVec_exhausted [0x80, 0xFF] (by set_option maxRecDepth 4000 in decide)

/-! ## Theorems: base58 identifiers -/

/-! ### The reference codec round-trips -/

/-- The digit of the character of a base58 digit is that digit. -/
theorem b58Digit_b58Char (d : Nat) (h : d < 58) : b58Digit (b58Char d) = d := by
  have key : ∀ e : Fin 58, b58Digit (b58Char e.val) = e.val := by decide
  exact key ⟨d, h⟩

/-- Only the digit zero is written `1`. -/
theorem b58Char_ne_one (d : Nat) (h : d < 58) (h0 : d ≠ 0) : b58Char d ≠ '1' := by
  have key : ∀ e : Fin 58, b58Char e.val = '1' → e.val = 0 := by decide
  exact fun hc => h0 (key ⟨d, h⟩ hc)

/-- The character of a base58 digit is in the alphabet. -/
theorem b58Char_mem (d : Nat) (h : d < 58) : b58Char d ∈ b58Alphabet := by
  have key : ∀ e : Fin 58, b58Char e.val ∈ b58Alphabet := by decide
  exact key ⟨d, h⟩

/-- The encoder only writes characters of the alphabet. -/
theorem b58EncodeChars_mem (bin : List Byte) : ∀ c ∈ b58EncodeChars bin, c ∈ b58Alphabet := by
  induction bin with
  | nil => intro c hc; simp [b58EncodeChars] at hc
  | cons b bs ih =>
    intro c hc
    by_cases hb : b = 0
    · simp only [b58EncodeChars, hb, if_true, List.mem_cons] at hc
      rcases hc with rfl | hc
      · decide
      · exact ih c hc
    · simp only [b58EncodeChars, hb, if_false, List.mem_map, List.mem_reverse] at hc
      obtain ⟨d, hd, rfl⟩ := hc
      exact b58Char_mem d (Nat.digits_lt_base (by norm_num) hd)

/-- The big-endian number of bytes that start with a nonzero byte is not zero. -/
theorem b58_number_ne_zero (b : Byte) (bs : List Byte) (hb : b ≠ 0) :
    Nat.ofDigits 256 ((b :: bs).reverse.map Fin.val) ≠ 0 := by
  have hv : b.val ≠ 0 := fun h => hb (Fin.ext h)
  simp only [List.reverse_cons, List.map_append, List.map_cons, List.map_nil,
    Nat.ofDigits_append, Nat.ofDigits_singleton]
  have h1 : 0 < 256 ^ (List.map Fin.val bs.reverse).length := pow_pos (by norm_num) _
  have := Nat.mul_pos h1 (Nat.pos_of_ne_zero hv)
  omega

/-- The text of a nonempty byte sequence is not empty. -/
theorem b58EncodeChars_ne_nil (b : Byte) (bs : List Byte) : b58EncodeChars (b :: bs) ≠ [] := by
  by_cases hb : b = 0
  · simp [b58EncodeChars, hb]
  · simp only [b58EncodeChars, hb, if_false, ne_eq, List.map_eq_nil_iff, List.reverse_eq_nil_iff,
      Nat.digits_eq_nil_iff_eq_zero]
    exact b58_number_ne_zero b bs hb

/-- The base-256 digits of the big-endian number of bytes that start with a nonzero
byte are those bytes, least significant first. -/
theorem b58_digits_number (b : Byte) (bs : List Byte) (hb : b ≠ 0) :
    Nat.digits 256 (Nat.ofDigits 256 ((b :: bs).reverse.map Fin.val)) =
      (b :: bs).reverse.map Fin.val := by
  have hv : b.val ≠ 0 := fun h => hb (Fin.ext h)
  apply Nat.digits_ofDigits 256 (by norm_num)
  · intro l hl
    obtain ⟨c, _, rfl⟩ := List.mem_map.1 hl
    exact c.isLt
  · intro _
    simpa [List.reverse_cons, List.map_append] using hv

/-- Converting bytes to numbers and back changes nothing. -/
theorem map_ofNat_val (l : List Byte) : (l.map Fin.val).map (Fin.ofNat : Nat → Byte) = l := by
  induction l with
  | nil => rfl
  | cons b bs ih =>
    simp only [List.map_cons, ih, List.cons.injEq, and_true]
    exact Fin.ext (ofNat_val b.val b.isLt)

/-- Decoding the characters the encoder wrote gives the bytes back. -/
theorem b58DecodeChars_b58EncodeChars (bin : List Byte) :
    b58DecodeChars (b58EncodeChars bin) = bin := by
  induction bin with
  | nil => rfl
  | cons b bs ih =>
    by_cases hb : b = 0
    · simp only [b58EncodeChars, hb, if_true, b58DecodeChars, ih]
    · have hN := b58_number_ne_zero b bs hb
      have hL := b58_digits_number b bs hb
      generalize hNdef : Nat.ofDigits 256 ((b :: bs).reverse.map Fin.val) = N at hN hL
      have hD : Nat.digits 58 N ≠ [] := Nat.digits_ne_nil_iff_ne_zero.2 hN
      have hlast : ∀ h : Nat.digits 58 N ≠ [], (Nat.digits 58 N).getLast h ≠ 0 :=
        fun _ => Nat.getLast_digit_ne_zero 58 hN
      have hlt : ∀ d ∈ Nat.digits 58 N, d < 58 := fun d hd => Nat.digits_lt_base (by norm_num) hd
      generalize hDdef : Nat.digits 58 N = D at hD hlast hlt
      have hspell : (D.map b58Char).map b58Digit = D := by
        rw [List.map_map]
        conv_rhs => rw [← List.map_id D]
        exact List.map_congr_left fun d hd => b58Digit_b58Char d (hlt d hd)
      have henc : b58EncodeChars (b :: bs) = D.reverse.map b58Char := by
        simp only [b58EncodeChars, hb, if_false, hNdef, hDdef]
      rw [henc]
      obtain ⟨d, ds, hrev⟩ : ∃ d ds, D.reverse = d :: ds := by
        cases h : D.reverse with
        | nil => exact absurd (List.reverse_eq_nil_iff.1 h) hD
        | cons d ds => exact ⟨d, ds, rfl⟩
      have hd0 : d ≠ 0 := by
        have hDe : D = ds.reverse ++ [d] := by
          rw [← List.reverse_reverse D, hrev, List.reverse_cons]
        subst hDe
        simpa using hlast (by simp)
      have hd58 : d < 58 := hlt d (by
        have : d ∈ D.reverse := by rw [hrev]; exact List.mem_cons_self d ds
        exact List.mem_reverse.1 this)
      have hne : b58Char d ≠ '1' := b58Char_ne_one d hd58 hd0
      have hback : (b58Char d :: ds.map b58Char).reverse.map b58Digit = D := by
        rw [← List.map_cons, ← hrev, ← List.map_reverse, List.reverse_reverse, hspell]
      rw [hrev, List.map_cons, b58DecodeChars, if_neg hne, hback, ← hDdef,
        Nat.ofDigits_digits, hL, ← List.map_reverse, List.reverse_reverse, map_ofNat_val]

/-- The reference codec decodes what it encoded, for every nonempty input. -/
theorem bitcoinBase58_Decode_Encode (bin : List Byte) (h : bin ≠ []) :
    bitcoinBase58.Decode (bitcoinBase58.Encode bin) = (bin, none) := by
  obtain ⟨b, bs, rfl⟩ := List.exists_cons_of_ne_nil h
  simp only [bitcoinBase58, b58EncodeChars_ne_nil b bs, if_false]
  rw [if_pos (b58EncodeChars_mem (b :: bs)), b58DecodeChars_b58EncodeChars]

/-- The reference codec decodes what it encoded, on 32-byte inputs. -/
theorem bitcoinBase58_Decode_Encode_32 (b : List Byte) (h : b.length = 32) :
    bitcoinBase58.Decode (bitcoinBase58.Encode b) = (b, none) :=
  bitcoinBase58_Decode_Encode b (by intro h0; rw [h0] at h; exact absurd h (by decide))

/-- Copying a slice of exactly `n` bytes into a `[n]byte` array replaces the whole
array. -/
theorem FixedBytes.copy_of_length_eq {n : Nat} (dst : FixedBytes n) (src : List Byte)
    (h : src.length = n) : dst.copy src = ⟨src, h⟩ := by
  apply Subtype.ext
  have h1 : src.take n = src := List.take_of_length_le (by omega)
  have h2 : dst.val.drop src.length = [] := List.drop_of_length_le (by rw [dst.property]; omega)
  simp only [FixedBytes.copy, h1, h2, List.append_nil]

/-- The outcome of `PublicKeyFromBase58` when the library rejects the text. -/
theorem PublicKeyFromBase58_of_decode_error (lib : Base58Lib) (text : String)
    (val : List Byte) (err : Error) (h : lib.Decode text = (val, some err)) :
    PublicKeyFromBase58 lib text = (PublicKey.zero, some err) := by
  simp only [PublicKeyFromBase58, h]

/-- The outcome of `PublicKeyFromBase58` when the text decodes to a number of bytes
other than 32. -/
theorem PublicKeyFromBase58_of_length_ne (lib : Base58Lib) (text : String)
    (val : List Byte) (h : lib.Decode text = (val, none)) (hlen : val.length ≠ 32) :
    PublicKeyFromBase58 lib text = (PublicKey.zero, some (Error.invalidLength 32 val.length)) := by
  simp only [PublicKeyFromBase58, h, hlen, ne_eq, not_false_eq_true, if_true]

/-- The outcome of `PublicKeyFromBase58` when the text decodes to 32 bytes. -/
theorem PublicKeyFromBase58_of_length_eq (lib : Base58Lib) (text : String)
    (val : List Byte) (h : lib.Decode text = (val, none)) (hlen : val.length = 32) :
    PublicKeyFromBase58 lib text = (⟨⟨val, hlen⟩⟩, none) := by
  simp only [PublicKeyFromBase58, h, hlen, ne_eq, not_true_eq_false, if_false,
    FixedBytes.copy_of_length_eq _ val hlen]

/-- The outcome of `SignatureFromBase58` when the text decodes to a number of bytes
other than 64. -/
theorem SignatureFromBase58_of_length_ne (lib : Base58Lib) (text : String)
    (val : List Byte) (h : lib.Decode text = (val, none)) (hlen : val.length ≠ 64) :
    SignatureFromBase58 lib text = (Signature.zero, some (Error.invalidLength 64 val.length)) := by
  simp only [SignatureFromBase58, h, hlen, ne_eq, not_false_eq_true, if_true]

/-- Claim C7: for every 32-byte `PublicKey` x, and every base58 library whose `Decode`
inverts its `Encode` on 32-byte inputs, `PublicKeyFromBase58(x.String())` succeeds and
returns x. -/
theorem PublicKeyFromBase58_String (lib : Base58Lib)
    (hlib : ∀ b : List Byte, b.length = 32 → lib.Decode (lib.Encode b) = (b, none))
    (x : PublicKey) :
    PublicKeyFromBase58 lib (x.String lib) = (x, none) :=
  PublicKeyFromBase58_of_length_eq lib (x.String lib) x.bytes.val
    (hlib x.bytes.val x.bytes.property) x.bytes.property

/-- Witness of C7: the reference codec round-trips 32-byte inputs, and the key
`00 01 02 ... 1F` comes back from its base58 text. -/
theorem PublicKeyFromBase58_String_witness :
    (∀ b : List Byte, b.length = 32 →
      bitcoinBase58.Decode (bitcoinBase58.Encode b) = (b, none)) ∧
    PublicKeyFromBase58 bitcoinBase58 (sampleKey.String bitcoinBase58) = (sampleKey, none) :=
  ⟨bitcoinBase58_Decode_Encode_32,
    PublicKeyFromBase58_String bitcoinBase58 bitcoinBase58_Decode_Encode_32 sampleKey⟩

/-- Claim C8 (the code departs from it): `Signature` is declared `[32]byte` while
`SignatureFromBase58` demands 64 decoded bytes, so for every `Signature` x, and every
base58 library whose `Decode` inverts its `Encode` on 32-byte inputs,
`SignatureFromBase58(x.String())` fails with the invalid-length error and returns the
zero value. -/
theorem SignatureFromBase58_String_fails (lib : Base58Lib)
    (hlib : ∀ b : List Byte, b.length = 32 → lib.Decode (lib.Encode b) = (b, none))
    (x : Signature) :
    SignatureFromBase58 lib (x.String lib) =
      (Signature.zero, some (Error.invalidLength 64 32)) := by
  have h := SignatureFromBase58_of_length_ne lib (x.String lib) x.bytes.val
    (hlib x.bytes.val x.bytes.property) (by rw [x.bytes.property]; decide)
  rw [x.bytes.property] at h
  exact h

/-- Witness of C8: with the reference codec, the signature `00 01 02 ... 1F` does
not come back from its base58 text. -/
theorem SignatureFromBase58_String_fails_witness :
    SignatureFromBase58 bitcoinBase58 (sampleSignature.String bitcoinBase58) =
      (Signature.zero, some (Error.invalidLength 64 32)) :=
  SignatureFromBase58_String_fails bitcoinBase58 bitcoinBase58_Decode_Encode_32 sampleSignature

/-- Claim C9: `PublicKeyFromBase58(text)` fails when the library rejects the text,
fails with the invalid-length error when the text decodes to a number of bytes
other than 32, and when the text decodes to exactly 32 bytes it succeeds and
returns exactly those bytes. -/
theorem PublicKeyFromBase58_outcome (lib : Base58Lib) (text : String) :
    (∀ val err, lib.Decode text = (val, some err) →
      PublicKeyFromBase58 lib text = (PublicKey.zero, some err)) ∧
    (∀ val, lib.Decode text = (val, none) → val.length ≠ 32 →
      PublicKeyFromBase58 lib text =
        (PublicKey.zero, some (Error.invalidLength 32 val.length))) ∧
    (∀ val (hlen : val.length = 32), lib.Decode text = (val, none) →
      PublicKeyFromBase58 lib text = (⟨⟨val, hlen⟩⟩, none)) :=
  ⟨fun val err h => PublicKeyFromBase58_of_decode_error lib text val err h,
    fun val h hlen => PublicKeyFromBase58_of_length_ne lib text val h hlen,
    fun val hlen h => PublicKeyFromBase58_of_length_eq lib text val h hlen⟩

/-! ## Theorems: bounded numerics -/

/-- Claim C10: for every 64-bit unsigned n, `U64(n).MarshalJSON` returns, with a nil
error, the base-10 digits of n between two double quotes when n > 0xFFFFFFFF and
the bare base-10 digits of n when n <= 0xFFFFFFFF. -/
theorem U64_MarshalJSON_digits (n : U64) :
    U64.MarshalJSON n =
      (if n.val > 0xFFFFFFFF then [0x22] ++ base10 n.val ++ [0x22] else base10 n.val, none) := by
  unfold U64.MarshalJSON jsonMarshalUint64
  split <;> rfl

/-- Two evaluations of `U64.MarshalJSON` around the switch: `4294967295` is written
bare and `4294967296` between double quotes. -/
theorem U64_MarshalJSON_examples :
    U64.MarshalJSON 4294967295 =
      ([0x34, 0x32, 0x39, 0x34, 0x39, 0x36, 0x37, 0x32, 0x39, 0x35], none) ∧
    U64.MarshalJSON 4294967296 =
      ([0x22, 0x34, 0x32, 0x39, 0x34, 0x39, 0x36, 0x37, 0x32, 0x39, 0x36, 0x22], none) := by
  have h1 : ((4294967295 : U64) : Nat) = 4294967295 := rfl
  have h2 : ((4294967296 : U64) : Nat) = 4294967296 := rfl
  constructor
  · simp [U64.MarshalJSON, jsonMarshalUint64, base10, h1]
    decide
  · simp [U64.MarshalJSON, jsonMarshalUint64, base10, h2]
    decide

/-! ## Theorems: the outcomes of the compact-u16 decoder -/

/-- The loop on a run of continuation bytes followed by anything. -/
theorem readShortVecLoop_append (cs : List Byte) (hcs : ∀ c ∈ cs, continuation c = true) :
    ∀ (rest : List Byte) (x i : Nat),
      readShortVecLoop (cs ++ rest) x ((7 * i) % 2 ^ 64) i =
        readShortVecLoop rest
          ((cs.enumFrom i).foldl
            (fun acc kb => acc ||| (((kb.2.val &&& 0x7F) <<< ((7 * kb.1) % 2 ^ 64)) % 2 ^ 64)) x)
          ((7 * (i + cs.length)) % 2 ^ 64) (i + cs.length) := by
  induction cs with
  | nil => intro rest x i; rfl
  | cons c cs ih =>
    intro rest x i
    have hc : 128 ≤ c.val := (continuation_iff c).1 (hcs c (List.mem_cons_self c cs))
    have hs : ((7 * i) % 2 ^ 64 + 7) % 2 ^ 64 = (7 * (i + 1)) % 2 ^ 64 := by omega
    rw [List.cons_append, readShortVecLoop_cont c _ _ _ _ hc, hs,
      ih (fun d hd => hcs d (List.mem_cons_of_mem c hd))]
    simp only [List.enumFrom_cons, List.foldl_cons, List.length_cons]
    have e : i + 1 + cs.length = i + (cs.length + 1) := by omega
    rw [e]
/-- The result of `readShortVec` on a source that only holds continuation bytes. -/
theorem readShortVec_of_all_continuation (cs : List Byte)
    (hcs : ∀ c ∈ cs, continuation c = true) :
    readShortVec cs = (groupsOr64 cs, some Error.EOF) := by
  have h := readShortVecLoop_append cs hcs [] 0 0
  simp only [List.append_nil, Nat.mul_zero, Nat.zero_mod] at h
  unfold readShortVec groupsOr64 List.enum
  rw [h]
  rfl

/-- The result of `readShortVec` on a source whose first byte with bit 7 clear is `t`,
after the continuation bytes `cs`. -/
theorem readShortVec_of_terminated (cs : List Byte) (t : Byte) (rest : List Byte)
    (hcs : ∀ c ∈ cs, continuation c = true) (ht : continuation t = false) :
    readShortVec (cs ++ t :: rest) =
      if cs.length > 4 ∨ (cs.length = 4 ∧ t.val > 1) then
        (groupsOr64 cs, some Error.shortVecOverflow)
      else
        (groupsOr64 cs ||| ((t.val <<< ((7 * cs.length) % 2 ^ 64)) % 2 ^ 64), none) := by
  have h := readShortVecLoop_append cs hcs (t :: rest) 0 0
  simp only [Nat.mul_zero, Nat.zero_mod, Nat.zero_add] at h
  have ht1 : t.val < 0x80 := by
    by_contra hn
    have := (continuation_iff t).2 (by omega)
    rw [ht] at this
    exact Bool.false_ne_true this
  unfold readShortVec groupsOr64 List.enum
  rw [h]
  simp only [readShortVecLoop, ht1, if_true]
/-- Every byte sequence either holds only continuation bytes or splits at its first
byte with bit 7 clear. -/
theorem continuation_split (r : List Byte) :
    (∀ c ∈ r, continuation c = true) ∨
    ∃ cs t rest, r = cs ++ t :: rest ∧ (∀ c ∈ cs, continuation c = true) ∧
      continuation t = false := by
  induction r with
  | nil => left; intro c hc; cases hc
  | cons b r ih =>
    cases hb : continuation b with
    | false => exact Or.inr ⟨[], b, r, rfl, fun c hc => absurd hc (List.not_mem_nil c), hb⟩
    | true =>
      rcases ih with h | ⟨cs, t, rest, hr, hcs, ht⟩
      · left
        intro c hc
        rcases List.mem_cons.1 hc with rfl | hc
        · exact hb
        · exact h c hc
      · right
        refine ⟨b :: cs, t, rest, by rw [hr]; rfl, ?_, ht⟩
        intro c hc
        rcases List.mem_cons.1 hc with rfl | hc
        · exact hb
        · exact hcs c hc

/-- The continuation bytes in front of the first byte with bit 7 clear are the
longest run of continuation bytes at the head. -/
theorem takeWhile_continuation_append (cs : List Byte) (t : Byte) (rest : List Byte)
    (hcs : ∀ c ∈ cs, continuation c = true) (ht : continuation t = false) :
    (cs ++ t :: rest).takeWhile continuation = cs := by
  induction cs with
  | nil => simp [List.takeWhile, ht]
  | cons c cs ih =>
    have hc := hcs c (List.mem_cons_self c cs)
    rw [List.cons_append, List.takeWhile_cons, hc, if_pos rfl,
      ih (fun d hd => hcs d (List.mem_cons_of_mem c hd))]

/-- A seven-bit group shifted to an index below 9 fits 64 bits, and so does its shift
count. -/
theorem group_shift_small (v k : Nat) (hk : k ≤ 8) :
    ((v &&& 0x7F) <<< ((7 * k) % 2 ^ 64)) % 2 ^ 64 = (v &&& 0x7F) <<< (7 * k) := by
  have h1 : (7 * k) % 2 ^ 64 = 7 * k := Nat.mod_eq_of_lt (by omega)
  have h2 : v &&& 0x7F < 2 ^ 7 := by rw [land_7f]; omega
  rw [h1, Nat.shiftLeft_eq]
  apply Nat.mod_eq_of_lt
  calc (v &&& 0x7F) * 2 ^ (7 * k) < 2 ^ 7 * 2 ^ (7 * k) :=
        Nat.mul_lt_mul_of_pos_right h2 (Nat.pos_pow_of_pos _ (by decide))
    _ = 2 ^ (7 + 7 * k) := (Nat.pow_add 2 7 (7 * k)).symm
    _ ≤ 2 ^ 64 := Nat.pow_le_pow_right (by decide) (by omega)

/-- On at most 9 bytes nothing wraps: the 64-bit OR is the plain OR. -/
theorem foldl_groups64_eq (bs : List Byte) :
    ∀ (x i : Nat), i + bs.length ≤ 9 →
      (bs.enumFrom i).foldl
        (fun acc kb => acc ||| (((kb.2.val &&& 0x7F) <<< ((7 * kb.1) % 2 ^ 64)) % 2 ^ 64)) x =
      (bs.enumFrom i).foldl (fun acc kb => acc ||| ((kb.2.val &&& 0x7F) <<< (7 * kb.1))) x := by
  induction bs with
  | nil => intro x i _; rfl
  | cons b bs ih =>
    intro x i h
    simp only [List.length_cons] at h
    simp only [List.enumFrom_cons, List.foldl_cons]
    rw [group_shift_small b.val i (by omega)]
    exact ih _ _ (by omega)

/-- On at most 9 bytes `groupsOr64` is `groupsOr`. -/
theorem groupsOr64_eq_groupsOr (bs : List Byte) (h : bs.length ≤ 9) :
    groupsOr64 bs = groupsOr bs :=
  foldl_groups64_eq bs 0 0 (by omega)

/-- The OR of a sequence extended by one byte. -/
theorem groupsOr_append_singleton (cs : List Byte) (t : Byte) :
    groupsOr (cs ++ [t]) = groupsOr cs ||| ((t.val &&& 0x7F) <<< (7 * cs.length)) := by
  simp [groupsOr, List.enum, List.enumFrom_append, List.foldl_append]

/-- The value of an accepted encoding: the plain OR over the bytes read. -/
theorem readShortVec_of_accepted (cs : List Byte) (t : Byte) (rest : List Byte)
    (hcs : ∀ c ∈ cs, continuation c = true) (ht : continuation t = false)
    (hk : cs.length ≤ 3 ∨ (cs.length = 4 ∧ t.val ≤ 1)) :
    readShortVec (cs ++ t :: rest) = (groupsOr (cs ++ [t]), none) := by
  have hlen : cs.length ≤ 4 := by omega
  have ht1 : t.val < 128 := by
    by_contra hn
    have := (continuation_iff t).2 (by omega)
    rw [ht] at this
    exact Bool.false_ne_true this
  have hmask : t.val &&& 0x7F = t.val := by rw [land_7f]; omega
  rw [readShortVec_of_terminated cs t rest hcs ht, if_neg (by omega),
    groupsOr64_eq_groupsOr cs (by omega), groupsOr_append_singleton]
  have := group_shift_small t.val cs.length (by omega)
  rw [hmask] at this
  rw [this, hmask]
/-- The plain OR of seven-bit groups is the base-128 number they spell, least
significant group first. -/
theorem foldl_groups_eq_ofDigits (bs : List Byte) :
    ∀ (x i : Nat), x < 2 ^ (7 * i) →
      (bs.enumFrom i).foldl (fun acc kb => acc ||| ((kb.2.val &&& 0x7F) <<< (7 * kb.1))) x =
        x + 2 ^ (7 * i) * Nat.ofDigits 128 (bs.map fun b => b.val % 128) := by
  induction bs with
  | nil => intro x i _; simp
  | cons b bs ih =>
    intro x i hx
    have hP : 2 ^ (7 * (i + 1)) = 128 * 2 ^ (7 * i) := by
      rw [Nat.mul_add, Nat.pow_add]; norm_num; ring
    have hp : b.val % 128 < 128 := Nat.mod_lt _ (by decide)
    simp only [List.enumFrom_cons, List.foldl_cons, List.map_cons, Nat.ofDigits_cons]
    rw [land_7f, lor_shiftLeft _ _ _ hx, ih _ _ (by rw [hP]; nlinarith), hP]
    ring

/-- The value `groupsOr` in base 128. -/
theorem groupsOr_eq_ofDigits (bs : List Byte) :
    groupsOr bs = Nat.ofDigits 128 (bs.map fun b => b.val % 128) := by
  have h := foldl_groups_eq_ofDigits bs 0 0 (by decide)
  simpa [groupsOr, List.enum] using h

/-- Two digit sequences of the same length in base 128 that spell the same number
are equal. -/
theorem ofDigits128_inj (l1 : List Nat) :
    ∀ l2 : List Nat, l1.length = l2.length → (∀ d ∈ l1, d < 128) → (∀ d ∈ l2, d < 128) →
      Nat.ofDigits 128 l1 = Nat.ofDigits 128 l2 → l1 = l2 := by
  induction l1 with
  | nil =>
    intro l2 hlen _ _ _
    exact (List.length_eq_zero.1 hlen.symm).symm
  | cons a l1 ih =>
    intro l2 hlen h1 h2 heq
    cases l2 with
    | nil => cases hlen
    | cons c l2 =>
      have ha := h1 a (List.mem_cons_self a l1)
      have hc := h2 c (List.mem_cons_self c l2)
      simp only [Nat.ofDigits_cons] at heq
      have e1 : a = c := by omega
      have e2 : Nat.ofDigits 128 l1 = Nat.ofDigits 128 l2 := by omega
      rw [e1, ih l2 (by simpa using hlen) (fun d hd => h1 d (List.mem_cons_of_mem a hd))
        (fun d hd => h2 d (List.mem_cons_of_mem c hd)) e2]

/-- Two bytes with the same continuation bit and the same low seven bits are equal. -/
theorem byte_eq_of_group_eq (a b : Byte) (hc : continuation a = continuation b)
    (hg : a.val % 128 = b.val % 128) : a = b := by
  apply Fin.ext
  have ha := a.isLt
  have hb := b.isLt
  cases h : continuation b with
  | true =>
    have h1 := (continuation_iff b).1 h
    have h2 := (continuation_iff a).1 (hc.trans h)
    omega
  | false =>
    have h1 : ¬ 128 ≤ b.val := fun hn => by
      have := (continuation_iff b).2 hn; rw [h] at this; exact Bool.false_ne_true this
    have h2 : ¬ 128 ≤ a.val := fun hn => by
      have := (continuation_iff a).2 hn; rw [hc, h] at this; exact Bool.false_ne_true this
    omega

/-- Two byte sequences with the same continuation bits and the same seven-bit
groups are equal. -/
theorem bytes_eq_of_groups_eq (l1 : List Byte) :
    ∀ l2 : List Byte, l1.map continuation = l2.map continuation →
      (l1.map fun b => b.val % 128) = (l2.map fun b => b.val % 128) → l1 = l2 := by
  induction l1 with
  | nil => intro l2 h _; exact (List.map_eq_nil_iff.1 h.symm).symm
  | cons a l1 ih =>
    intro l2 hc hg
    cases l2 with
    | nil => simp at hc
    | cons c l2 =>
      simp only [List.map_cons, List.cons.injEq] at hc hg
      rw [byte_eq_of_group_eq a c hc.1 hg.1, ih l2 hc.2 hg.2]

/-- The continuation bits of a run of continuation bytes closed by a byte with bit 7
clear. -/
theorem map_continuation_append (cs : List Byte) (t : Byte)
    (hcs : ∀ c ∈ cs, continuation c = true) (ht : continuation t = false) :
    (cs ++ [t]).map continuation = List.replicate cs.length true ++ [false] := by
  rw [List.map_append, List.map_singleton, ht]
  congr 1
  exact List.eq_replicate_iff.2 ⟨by simp, fun b hb => by
    obtain ⟨c, hc, rfl⟩ := List.mem_map.1 hb
    exact hcs c hc⟩
/-- Claim C14, as stated, fails: on the one-byte source `81` the decoder returns the
end-of-input error together with the value 1, and on `81 80 80 80 80 00` the overflow
error together with the value 1. -/
theorem readShortVec_error_value_nonzero :
    readShortVec [0x81] = (1, some Error.EOF) ∧
    readShortVec [0x81, 0x80, 0x80, 0x80, 0x80, 0x00] = (1, some Error.shortVecOverflow) := by
  decide

/-- Claim C14, amended: whenever `readShortVec` returns an error (end of input or
overflow), the value it returns alongside the error is the accumulator at that
point: the OR of `(b_k & 0x7F) << (7 * k)` over the continuation bytes `b_k` read before
the failure, computed in 64 bits (the shift count and each shifted group
reduced modulo `2 ^ 64`), for every byte stream. -/
theorem readShortVec_error_value (r : List Byte) (h : (readShortVec r).2 ≠ none) :
    (readShortVec r).1 = groupsOr64 (r.takeWhile continuation) := by
  rcases continuation_split r with hall | ⟨cs, t, rest, rfl, hcs, ht⟩
  · rw [readShortVec_of_all_continuation r hall,
      List.takeWhile_eq_self_iff.2 (fun c hc => hall c hc)]
  · rw [takeWhile_continuation_append cs t rest hcs ht]
    rw [readShortVec_of_terminated cs t rest hcs ht] at h ⊢
    split
    · rfl
    · rename_i hk
      rw [if_neg hk] at h
      exact absurd rfl h

/-- Witness of the amended C14 on the source `81`: the error comes with the value 1. -/
theorem readShortVec_error_value_witness :
    (readShortVec [0x81]).2 ≠ none ∧
    (readShortVec [0x81]).1 = groupsOr64 (([0x81] : List Byte).takeWhile continuation) :=
  ⟨by decide, readShortVec_error_value [0x81] (by decide)⟩

/-- Claim C15, as stated, fails: the distinct sequences `00` and `80 00` are both
accepted, each read in full up to its first byte with bit 7 clear, and both
decode to 0. -/
theorem readShortVec_not_injective :
    readShortVec [0x00] = (0, none) ∧ readShortVec [0x80, 0x00] = (0, none) ∧
    continuation 0x00 = false ∧ continuation 0x80 = true ∧
    ([0x00] : List Byte) ≠ [0x80, 0x00] := by
  decide

/-- Two sequences of the same length that `readShortVec` accepts, each read in full up
to its first byte with bit 7 clear, and that decode to the same value are equal. -/
theorem readShortVec_injective_of_length_eq (cs1 cs2 : List Byte) (t1 t2 : Byte)
    (hcs1 : ∀ c ∈ cs1, continuation c = true) (ht1 : continuation t1 = false)
    (hcs2 : ∀ c ∈ cs2, continuation c = true) (ht2 : continuation t2 = false)
    (hacc1 : (readShortVec (cs1 ++ [t1])).2 = none)
    (hacc2 : (readShortVec (cs2 ++ [t2])).2 = none)
    (hlen : (cs1 ++ [t1]).length = (cs2 ++ [t2]).length)
    (hval : (readShortVec (cs1 ++ [t1])).1 = (readShortVec (cs2 ++ [t2])).1) :
    cs1 ++ [t1] = cs2 ++ [t2] := by
  have key : ∀ (cs : List Byte) (t : Byte), (∀ c ∈ cs, continuation c = true) →
      continuation t = false → (readShortVec (cs ++ [t])).2 = none →
      readShortVec (cs ++ [t]) = (groupsOr (cs ++ [t]), none) := by
    intro cs t hcs ht hacc
    have hk : cs.length ≤ 3 ∨ (cs.length = 4 ∧ t.val ≤ 1) := by
      rw [readShortVec_of_terminated cs t [] hcs ht] at hacc
      by_contra hn
      rw [if_pos (by omega)] at hacc
      cases hacc
    exact readShortVec_of_accepted cs t [] hcs ht hk
  rw [key cs1 t1 hcs1 ht1 hacc1, key cs2 t2 hcs2 ht2 hacc2] at hval
  simp only [groupsOr_eq_ofDigits] at hval
  have hl : cs1.length = cs2.length := by simpa using hlen
  have hmod : ∀ l : List Byte, ∀ d ∈ l.map (fun b => b.val % 128), d < 128 := by
    intro l d hd
    obtain ⟨b, _, rfl⟩ := List.mem_map.1 hd
    exact Nat.mod_lt _ (by decide)
  apply bytes_eq_of_groups_eq
  · rw [map_continuation_append cs1 t1 hcs1 ht1, map_continuation_append cs2 t2 hcs2 ht2, hl]
  · exact ofDigits128_inj _ _ (by simpa using hlen) (hmod _) (hmod _) hval

/-- The value of a sequence read in full and accepted: the plain OR over its bytes. -/
theorem readShortVec_of_accepted_whole (cs : List Byte) (t : Byte)
    (hcs : ∀ c ∈ cs, continuation c = true) (ht : continuation t = false)
    (hacc : (readShortVec (cs ++ [t])).2 = none) :
    readShortVec (cs ++ [t]) = (groupsOr (cs ++ [t]), none) := by
  have hk : cs.length ≤ 3 ∨ (cs.length = 4 ∧ t.val ≤ 1) := by
    rw [readShortVec_of_terminated cs t [] hcs ht] at hacc
    by_contra hn
    rw [if_pos (by omega)] at hacc
    cases hacc
  exact readShortVec_of_accepted cs t [] hcs ht hk

/-- The seven-bit groups of a sequence without zero padding are the base-128 digits
of the number they spell, unless the sequence is the single byte `00`. -/
theorem unpadded_groups (cs : List Byte) (t : Byte) (ht : continuation t = false)
    (hp : t ≠ 0 ∨ cs = []) :
    (Nat.ofDigits 128 ((cs ++ [t]).map fun b => b.val % 128) = 0 → cs = [] ∧ t = 0) ∧
    (Nat.ofDigits 128 ((cs ++ [t]).map fun b => b.val % 128) ≠ 0 →
      ((cs ++ [t]).map fun b => b.val % 128) =
        Nat.digits 128 (Nat.ofDigits 128 ((cs ++ [t]).map fun b => b.val % 128))) := by
  have ht1 : t.val < 128 := by
    by_contra hn
    have := (continuation_iff t).2 (by omega)
    rw [ht] at this
    exact Bool.false_ne_true this
  by_cases h0 : t = 0
  · have hcs : cs = [] := by
      rcases hp with h | h
      · exact absurd h0 h
      · exact h
    subst hcs
    subst h0
    refine ⟨fun _ => ⟨rfl, rfl⟩, fun hne => ?_⟩
    exact absurd (by simp [Nat.ofDigits]) hne
  · have hv : t.val ≠ 0 := fun h => h0 (Fin.ext h)
    have hmod : t.val % 128 = t.val := Nat.mod_eq_of_lt ht1
    refine ⟨fun hz => ?_, fun _ => ?_⟩
    · exfalso
      rw [List.map_append, List.map_singleton, Nat.ofDigits_append, Nat.ofDigits_singleton,
        hmod] at hz
      have h1 : 0 < 128 ^ (List.map (fun b : Byte => b.val % 128) cs).length :=
        pow_pos (by norm_num) _
      have := Nat.mul_pos h1 (Nat.pos_of_ne_zero hv)
      omega
    · symm
      apply Nat.digits_ofDigits 128 (by norm_num)
      · intro d hd
        obtain ⟨b, _, rfl⟩ := List.mem_map.1 hd
        exact Nat.mod_lt _ (by decide)
      · intro _
        simpa [List.map_append, hmod] using hv

/-- Claim C15, amended: no two distinct byte sequences without zero padding (the last
byte is not `00`, or the sequence is the single byte `00`) are both accepted by
`readShortVec` (each read in full, ending at its first byte with bit 7 clear) and
decoded to the same value, whatever their lengths. -/
theorem readShortVec_injective_of_unpadded (cs1 cs2 : List Byte) (t1 t2 : Byte)
    (hcs1 : ∀ c ∈ cs1, continuation c = true) (ht1 : continuation t1 = false)
    (hcs2 : ∀ c ∈ cs2, continuation c = true) (ht2 : continuation t2 = false)
    (hp1 : t1 ≠ 0 ∨ cs1 = []) (hp2 : t2 ≠ 0 ∨ cs2 = [])
    (hacc1 : (readShortVec (cs1 ++ [t1])).2 = none)
    (hacc2 : (readShortVec (cs2 ++ [t2])).2 = none)
    (hval : (readShortVec (cs1 ++ [t1])).1 = (readShortVec (cs2 ++ [t2])).1) :
    cs1 ++ [t1] = cs2 ++ [t2] := by
  rw [readShortVec_of_accepted_whole cs1 t1 hcs1 ht1 hacc1,
    readShortVec_of_accepted_whole cs2 t2 hcs2 ht2 hacc2] at hval
  simp only [groupsOr_eq_ofDigits] at hval
  have u1 := unpadded_groups cs1 t1 ht1 hp1
  have u2 := unpadded_groups cs2 t2 ht2 hp2
  by_cases hz : Nat.ofDigits 128 ((cs1 ++ [t1]).map fun b => b.val % 128) = 0
  · obtain ⟨e1, e2⟩ := u1.1 hz
    obtain ⟨e3, e4⟩ := u2.1 (hval ▸ hz)
    rw [e1, e2, e3, e4]
  · have g1 := u1.2 hz
    have g2 := u2.2 (hval ▸ hz)
    have hg : ((cs1 ++ [t1]).map fun b => b.val % 128) =
        ((cs2 ++ [t2]).map fun b => b.val % 128) := by
      rw [g1, g2, hval]
    have hl : cs1.length = cs2.length := by
      have := congrArg List.length hg
      simpa using this
    apply bytes_eq_of_groups_eq _ _ _ hg
    rw [map_continuation_append cs1 t1 hcs1 ht1, map_continuation_append cs2 t2 hcs2 ht2, hl]

/-- Witness of the amended C15 on the two-byte encoding `FF 7F` of 16383. -/
theorem readShortVec_injective_of_unpadded_witness :
    (readShortVec ([0xFF] ++ [0x7F])).2 = none ∧ ((0x7F : Byte) ≠ 0 ∨ ([0xFF] : List Byte) = []) ∧
    ([0xFF] : List Byte) ++ [0x7F] = [0xFF] ++ [0x7F] :=
  ⟨by decide, by decide,
    readShortVec_injective_of_unpadded [0xFF] [0xFF] 0x7F 0x7F
      (by set_option maxRecDepth 4000 in decide) (by decide)
      (by set_option maxRecDepth 4000 in decide) (by decide)
      (by decide) (by decide) (by decide) (by decide) rfl⟩

/-- Claim C16: for every finite byte stream, `readShortVec` succeeds if and only if the
stream has a first byte `t` with bit 7 clear, after continuation bytes `cs`, at index
at most 3, or at index 4 with value at most 1; when it succeeds the result is the
OR of `(b_k & 0x7F) << (7 * k)` over the bytes read; and a first such byte at index 4
with value above 1, or at an index above 4, yields the overflow error. -/
theorem readShortVec_acceptance (r : List Byte) :
    ((readShortVec r).2 = none ↔
      ∃ cs t rest, r = cs ++ t :: rest ∧ (∀ c ∈ cs, continuation c = true) ∧
        continuation t = false ∧ (cs.length ≤ 3 ∨ (cs.length = 4 ∧ t.val ≤ 1))) ∧
    (∀ cs t rest, r = cs ++ t :: rest → (∀ c ∈ cs, continuation c = true) →
        continuation t = false →
      ((cs.length ≤ 3 ∨ (cs.length = 4 ∧ t.val ≤ 1)) →
        readShortVec r = (groupsOr (cs ++ [t]), none)) ∧
      ((cs.length > 4 ∨ (cs.length = 4 ∧ t.val > 1)) →
        (readShortVec r).2 = some Error.shortVecOverflow)) := by
  refine ⟨⟨fun h => ?_, fun h => ?_⟩, fun cs t rest hr hcs ht => ⟨fun hk => ?_, fun hk => ?_⟩⟩
  · rcases continuation_split r with hall | ⟨cs, t, rest, rfl, hcs, ht⟩
    · rw [readShortVec_of_all_continuation r hall] at h
      cases h
    · refine ⟨cs, t, rest, rfl, hcs, ht, ?_⟩
      rw [readShortVec_of_terminated cs t rest hcs ht] at h
      by_contra hn
      rw [if_pos (by omega)] at h
      cases h
  · obtain ⟨cs, t, rest, rfl, hcs, ht, hk⟩ := h
    rw [readShortVec_of_accepted cs t rest hcs ht hk]
  · rw [hr]
    exact readShortVec_of_accepted cs t rest hcs ht hk
  · rw [hr, readShortVec_of_terminated cs t rest hcs ht, if_pos hk]

/-! ## Theorems: size and unpacking of a short vec -/

/-- The last iteration of `binary.PutUvarint`: a value below `0x80` is stored as it is. -/
theorem putUvarintLoop_last (buf : List Byte) (x i : Nat) (hx : x < 128) (hi : i < buf.length) :
    putUvarintLoop buf x i = some (buf.set i (Fin.ofNat x), i + 1) := by
  rw [putUvarintLoop]
  have h : ¬ x ≥ 0x80 := by omega
  simp only [h, hi, dite_false, if_true]

/-- One iteration of `binary.PutUvarint` on a value of at least `0x80`. -/
theorem putUvarintLoop_step (buf : List Byte) (x i : Nat) (hx : 128 ≤ x) (hi : i < buf.length) :
    putUvarintLoop buf x i =
      putUvarintLoop (buf.set i (Fin.ofNat ((x % 256) ||| 0x80))) (x / 128) (i + 1) := by
  rw [putUvarintLoop]
  have h : x ≥ 0x80 := hx
  have h7 : x >>> 7 = x / 128 := Nat.shiftRight_eq_div_pow x 7
  simp only [h, hi, dite_true, if_true, h7]

/-- The length of the specification's encoding, by ranges. -/
theorem specEncode_length (n : Nat) (h : n ≤ 65535) :
    (specEncode n).length = if n ≤ 127 then 1 else if n ≤ 16383 then 2 else 3 := by
  rw [specEncode_eq]
  by_cases h1 : n ≤ 127
  · rw [if_pos (by omega), if_pos h1]; rfl
  · rw [if_neg (by omega), if_neg h1, List.length_cons, specEncode_eq]
    by_cases h2 : n ≤ 16383
    · rw [if_pos (by omega), if_pos h2]; rfl
    · rw [if_neg (by omega), if_neg h2, List.length_cons, specEncode_eq, if_pos (by omega)]; rfl

/-- Claim C17: for every `ShortVec` value n, `ShortVec.Size` returns the length of the
compact-u16 encoding of n: 1 for n <= 127, 2 for 128 <= n <= 16383 and 3 for
16384 <= n <= 65535. -/
theorem ShortVec_Size_eq (v : ShortVec) :
    ShortVec.Size v = some (specEncode v.val).length ∧
    ShortVec.Size v = some (if v.val ≤ 127 then 1 else if v.val ≤ 16383 then 2 else 3) := by
  have hv : v.val ≤ 65535 := by have := v.isLt; omega
  rw [specEncode_length v.val hv]
  refine ⟨?_, ?_⟩ <;>
  · unfold ShortVec.Size
    by_cases h1 : v.val ≤ 127
    · rw [putUvarintLoop_last _ _ _ (by omega) (by simp), if_pos h1]; rfl
    · rw [putUvarintLoop_step _ _ _ (by omega) (by simp), if_neg h1]
      by_cases h2 : v.val ≤ 16383
      · rw [putUvarintLoop_last _ _ _ (by omega) (by simp), if_pos h2]; rfl
      · rw [putUvarintLoop_step _ _ _ (by omega) (by simp),
          putUvarintLoop_last _ _ _ (by omega) (by simp), if_neg h2]; rfl

/-- The loop of `ShortVec.Unpack` is still running after any number of iterations. -/
theorem ShortVec.unpackLoop_eq_none (fuel : Nat) (st : UnpackState) :
    ShortVec.unpackLoop fuel st = none := by
  induction fuel with
  | zero => rfl
  | succ k ih => exact ih

/-- Claim C18 (the code departs from it): the loop of `ShortVec.Unpack` has an empty body
and no exit, so for every receiver, every byte source (the empty one included)
and every number of iterations the call has not returned; it reads no byte and
returns no error. -/
theorem ShortVec_Unpack_never_returns (fuel : Nat) (v : ShortVec) (r : List Byte) :
    ShortVec.Unpack fuel v r = none := by
  unfold ShortVec.Unpack
  rw [ShortVec.unpackLoop_eq_none]

/-! ## Theorems: byte-stream adapter -/

/-- The error that `ReadByte` returns is the error of the one `Read` call it makes,
whatever count that call returns. -/
theorem ReadByte_error_eq {σ : Type} (w : Reader σ) (st : σ) :
    (ByteWrapper.ReadByte w st).1.2 = (w st [0]).1.err :=
  rfl

/-- At the end of an in-memory source `Read` delivers 0 bytes with `io.EOF`, and `ReadByte`
returns `io.EOF`. -/
theorem ReadByte_bytesReader_empty :
    (bytesReader [] [0]).1.n = 0 ∧ (ByteWrapper.ReadByte bytesReader []).1 = (0, some Error.EOF) := by
  decide

/-- Claim C13 (the code departs from it): over a source whose `Read` delivers 0 bytes
with a nil error, `ReadByte` returns a byte that was never read and a nil error: the
byte `00` of its fresh buffer over a source that leaves the buffer alone, the byte
`7F` over a source that used the buffer as scratch space. -/
theorem ReadByte_idle_no_error :
    (idleReader () [0]).1.n = 0 ∧ (idleReader () [0]).1.err = none ∧
    (ByteWrapper.ReadByte idleReader ()).1 = (0x00, none) ∧
    (scratchReader () [0]).1.n = 0 ∧ (scratchReader () [0]).1.err = none ∧
    (ByteWrapper.ReadByte scratchReader ()).1 = (0x7F, none) := by
  decide

/-! ## Theorems: decoding bounded numerics -/

/-- Reading decimal digits, most significant first, never lowers the number read so
far. -/
theorem le_foldl_decimal (ds : List Nat) :
    ∀ a : Nat, a ≤ ds.foldl (fun a d => a * 10 + d) a := by
  induction ds with
  | nil => intro a; exact Nat.le_refl a
  | cons d ds ih =>
    intro a
    exact Nat.le_trans (by omega) (ih (a * 10 + d))

/-- The loop of `strconv.ParseUint` on ASCII decimal digits whose number fits 64 bits. -/
theorem parseUintLoop_digits (ds : List Nat) :
    ∀ a : Nat, (∀ d ∈ ds, d < 10) → ds.foldl (fun a d => a * 10 + d) a < 2 ^ 64 →
      parseUintLoop (ds.map fun d => Fin.ofNat (0x30 + d)) a =
        (ds.foldl (fun a d => a * 10 + d) a, none) := by
  induction ds with
  | nil => intro a _ _; rfl
  | cons d ds ih =>
    intro a hd hlt
    have hd10 : d < 10 := hd d (List.mem_cons_self d ds)
    have hval : ((Fin.ofNat (0x30 + d) : Byte)).val = 0x30 + d := ofNat_val _ (by omega)
    have hle := le_foldl_decimal ds (a * 10 + d)
    simp only [List.foldl_cons] at hlt ⊢
    have h1 : 0x30 ≤ 0x30 + d ∧ 0x30 + d ≤ 0x39 := by omega
    have h2 : ¬ a ≥ (2 ^ 64 - 1) / 10 + 1 := by omega
    have h3 : ((a * 10) % 2 ^ 64 + (0x30 + d - 0x30)) % 2 ^ 64 = a * 10 + d := by omega
    have h4 : ¬ (a * 10 + d < (a * 10) % 2 ^ 64 ∨ a * 10 + d > 2 ^ 64 - 1) := by omega
    simp only [List.map_cons, parseUintLoop, hval, h1, h2, h3, h4, and_self, if_true, if_false]
    exact ih _ (fun e he => hd e (List.mem_cons_of_mem d he)) hlt

/-- The text `base10 n` is a nonempty run of ASCII decimal digits that spells `n`, without
a leading zero unless it is the single digit `0`. -/
theorem base10_digits (n : Nat) :
    ∃ ds : List Nat, ds ≠ [] ∧ (∀ d ∈ ds, d < 10) ∧
      base10 n = ds.map (fun d => Fin.ofNat (0x30 + d)) ∧
      ds.foldl (fun a d => a * 10 + d) 0 = n ∧
      (ds.head? = some 0 → ds.length = 1) := by
  by_cases h0 : n = 0
  · subst h0
    exact ⟨[0], by simp, by simp, rfl, rfl, fun _ => rfl⟩
  · refine ⟨(Nat.digits 10 n).reverse, ?_, ?_, ?_, ?_, ?_⟩
    · simpa using Nat.digits_ne_nil_iff_ne_zero.2 h0
    · intro d hd
      exact Nat.digits_lt_base (by norm_num) (List.mem_reverse.1 hd)
    · simp only [base10, h0, if_false, List.map_reverse]
    · rw [List.foldl_reverse]
      conv_rhs => rw [← Nat.ofDigits_digits 10 n]
      rw [Nat.ofDigits_eq_foldr]
      simp only [Nat.cast_id, Nat.mul_comm, Nat.add_comm]
    · intro hh
      exfalso
      have hlast := Nat.getLast_digit_ne_zero 10 h0
      rw [List.head?_reverse] at hh
      rw [List.getLast?_eq_getLast _ (Nat.digits_ne_nil_iff_ne_zero.2 h0)] at hh
      exact hlast (Option.some.inj hh)

/-- The call `strconv.ParseUint` reads back the base-10 digits of a 64-bit number. -/
theorem ParseUint_base10 (n : Nat) (h : n < 2 ^ 64) : ParseUint (base10 n) = (n, none) := by
  obtain ⟨ds, hne, hlt, hb, hv, _⟩ := base10_digits n
  have hnil : ds.map (fun d => (Fin.ofNat (0x30 + d) : Byte)) ≠ [] := by
    simpa using hne
  rw [hb, ParseUint, if_neg hnil, parseUintLoop_digits ds 0 hlt (by rw [hv]; exact h), hv]

/-- Every byte of `base10 n` is an ASCII decimal digit. -/
theorem base10_ascii (n : Nat) : ∀ c ∈ base10 n, 0x30 ≤ c.val ∧ c.val ≤ 0x39 := by
  obtain ⟨ds, _, hlt, hb, _, _⟩ := base10_digits n
  intro c hc
  rw [hb] at hc
  obtain ⟨d, hd, rfl⟩ := List.mem_map.1 hc
  have := hlt d hd
  rw [ofNat_val _ (by omega)]
  omega

/-- The text `base10 n` starts with a byte, and that byte is no double quote. -/
theorem base10_cons (n : Nat) : ∃ c cs, base10 n = c :: cs ∧ c ≠ 0x22 := by
  obtain ⟨ds, hne, _, hb, _, _⟩ := base10_digits n
  cases hbn : base10 n with
  | nil =>
    rw [hbn] at hb
    exact absurd (List.map_eq_nil_iff.1 hb.symm) hne
  | cons c cs =>
    refine ⟨c, cs, rfl, fun hq => ?_⟩
    have := base10_ascii n c (by rw [hbn]; exact List.mem_cons_self c cs)
    rw [hq] at this
    exact absurd this.1 (by decide)

/-- Converting the number of a 64-bit value back to the 64-bit type changes
nothing. -/
theorem U64_ofNat_of_val (n : U64) : U64.ofNat n.val = n :=
  Fin.ext (Nat.mod_eq_of_lt n.isLt)

/-- The outcome of `U64.UnmarshalJSON` on the quoted base-10 digits of a 64-bit number,
for a JSON library that decodes a quoted run of digits to that run. -/
theorem U64_UnmarshalJSON_quoted (lib : JsonLib)
    (hstr : ∀ ds : List Byte, (∀ c ∈ ds, 0x30 ≤ c.val ∧ c.val ≤ 0x39) →
      lib.UnmarshalString ([0x22] ++ ds ++ [0x22]) = (ds, none))
    (n i : U64) :
    U64.UnmarshalJSON lib i ([0x22] ++ base10 n.val ++ [0x22]) = (n, none) := by
  have h1 := hstr (base10 n.val) (base10_ascii n.val)
  have h2 := ParseUint_base10 n.val n.isLt
  simp only [List.singleton_append, List.cons_append] at h1 ⊢
  simp only [U64.UnmarshalJSON, if_true, h1, h2, U64_ofNat_of_val]

/-- The outcome of `U64.UnmarshalJSON` on the bare base-10 digits of a 64-bit number, for a
JSON library that decodes them to that number. -/
theorem U64_UnmarshalJSON_bare (lib : JsonLib)
    (hnum : ∀ m : U64, lib.UnmarshalUint64 (jsonMarshalUint64 m.val).1 = (m.val, none))
    (n i : U64) :
    U64.UnmarshalJSON lib i (base10 n.val) = (n, none) := by
  have h1 : lib.UnmarshalUint64 (base10 n.val) = (n.val, none) := hnum n
  obtain ⟨c, cs, hb, hc⟩ := base10_cons n.val
  rw [hb] at h1 ⊢
  simp only [U64.UnmarshalJSON, hc, if_false, h1, U64_ofNat_of_val]

/-- Claim C11: for every n in [0, 2^64-1], on both sides of the 0xFFFFFFFF switch, and
for every JSON library that decodes a quoted run of decimal digits to that run
and the bare digits it writes for a `uint64` to that number, `U64.UnmarshalJSON` applied
to the output of `U64(n).MarshalJSON` succeeds and sets the receiver to n. -/
theorem U64_UnmarshalJSON_MarshalJSON (lib : JsonLib)
    (hstr : ∀ ds : List Byte, (∀ c ∈ ds, 0x30 ≤ c.val ∧ c.val ≤ 0x39) →
      lib.UnmarshalString ([0x22] ++ ds ++ [0x22]) = (ds, none))
    (hnum : ∀ m : U64, lib.UnmarshalUint64 (jsonMarshalUint64 m.val).1 = (m.val, none))
    (n i : U64) :
    (U64.MarshalJSON n).2 = none ∧
    U64.UnmarshalJSON lib i (U64.MarshalJSON n).1 = (n, none) := by
  unfold U64.MarshalJSON jsonMarshalUint64
  split
  · exact ⟨rfl, U64_UnmarshalJSON_quoted lib hstr n i⟩
  · exact ⟨rfl, U64_UnmarshalJSON_bare lib hnum n i⟩

/-- Claim C12: `U64.UnmarshalJSON` on empty input (zero bytes of data) returns the
empty-value error and leaves the receiver unchanged, whatever the JSON library. -/
theorem U64_UnmarshalJSON_empty (lib : JsonLib) (i : U64) :
    U64.UnmarshalJSON lib i [] = (i, some Error.emptyValue) :=
  rfl

/-- The reference JSON decoder reads a quoted run of decimal digits as that run. -/
theorem plainJson_UnmarshalString_digits (ds : List Byte)
    (h : ∀ c ∈ ds, 0x30 ≤ c.val ∧ c.val ≤ 0x39) :
    plainJson.UnmarshalString ([0x22] ++ ds ++ [0x22]) = (ds, none) := by
  have h1 : (ds ++ [(0x22 : Byte)]).getLast? = some 0x22 := by simp
  have h2 : (ds ++ [(0x22 : Byte)]).dropLast = ds := by simp
  have h3 : ∀ c ∈ ds, 0x20 ≤ c.val ∧ c.val < 0x80 ∧ c.val ≠ 0x22 ∧ c.val ≠ 0x5C := by
    intro c hc
    have := h c hc
    omega
  show plainJson.UnmarshalString (0x22 :: (ds ++ [0x22])) = (ds, none)
  simp only [plainJson, h1, h2, true_and]
  rw [if_pos h3]

/-- The reference JSON decoder reads the bare digits of a 64-bit number as that
number. -/
theorem plainJson_UnmarshalUint64_base10 (m : U64) :
    plainJson.UnmarshalUint64 (jsonMarshalUint64 m.val).1 = (m.val, none) := by
  obtain ⟨ds, hne, hlt, hb, _, hz⟩ := base10_digits m.val
  have h1 : base10 m.val ≠ [] := by
    obtain ⟨c, cs, hc, _⟩ := base10_cons m.val
    rw [hc]; exact List.cons_ne_nil c cs
  have h2 := base10_ascii m.val
  have h3 : (base10 m.val).head? = some 0x30 → (base10 m.val).length = 1 := by
    rw [hb, List.head?_map, List.length_map]
    intro hh
    apply hz
    cases hd : ds.head? with
    | none => rw [hd] at hh; cases hh
    | some d =>
      rw [hd] at hh
      have hd10 : d < 10 := hlt d (List.mem_of_mem_head? hd)
      have hv := congrArg Fin.val (Option.some.inj hh)
      rw [ofNat_val _ (by omega)] at hv
      have hv2 : 0x30 + d = 48 := hv
      have : d = 0 := by omega
      rw [this]
  have h4 := ParseUint_base10 m.val m.isLt
  simp only [jsonMarshalUint64, plainJson]
  rw [if_pos ⟨h1, h2, h3⟩, h4]

/-- Witness of C11 with the reference JSON decoder: the bare `7` and the quoted
`18446744073709551615` both come back. -/
theorem U64_UnmarshalJSON_MarshalJSON_witness :
    ((U64.MarshalJSON 7).2 = none ∧
      U64.UnmarshalJSON plainJson 0 (U64.MarshalJSON 7).1 = (7, none)) ∧
    ((U64.MarshalJSON 18446744073709551615).2 = none ∧
      U64.UnmarshalJSON plainJson 0 (U64.MarshalJSON 18446744073709551615).1 =
        (18446744073709551615, none)) :=
  ⟨U64_UnmarshalJSON_MarshalJSON plainJson plainJson_UnmarshalString_digits
      plainJson_UnmarshalUint64_base10 7 0,
    U64_UnmarshalJSON_MarshalJSON plainJson plainJson_UnmarshalString_digits
      plainJson_UnmarshalUint64_base10 18446744073709551615 0⟩

/-! ## Theorems: signatures from 64 decoded bytes -/

/-- The outcome of `SignatureFromBase58` when the text decodes to 64 bytes: the call
succeeds and the `[32]byte` result holds the first 32 of them. -/
theorem SignatureFromBase58_of_length_64 (lib : Base58Lib) (text : String)
    (val : List Byte) (h : lib.Decode text = (val, none)) (hlen : val.length = 64) :
    (SignatureFromBase58 lib text).2 = none ∧
    (SignatureFromBase58 lib text).1.bytes.val = val.take 32 := by
  have h64 : ¬ val.length ≠ 64 := fun hn => hn hlen
  have hd : (Signature.zero.bytes.val).drop val.length = [] :=
    List.drop_of_length_le (by rw [Signature.zero.bytes.property, hlen]; decide)
  simp only [SignatureFromBase58, h, h64, if_false, FixedBytes.copy, hd, List.append_nil,
    and_self]

/-- Claim C19 (the code departs from it): two texts that decode to different 64-byte
sequences, `00 01 ... 3E 3F` and `00 01 ... 3E FF`, are both accepted by
`SignatureFromBase58`, which keeps the first 32 bytes only, and give the same
`Signature`. -/
theorem SignatureFromBase58_keeps_32_of_64 :
    bitcoinBase58.Decode (bitcoinBase58.Encode sampleBytes64) = (sampleBytes64, none) ∧
    bitcoinBase58.Decode (bitcoinBase58.Encode sampleBytes64Alt) = (sampleBytes64Alt, none) ∧
    sampleBytes64.length = 64 ∧ sampleBytes64Alt.length = 64 ∧
    sampleBytes64 ≠ sampleBytes64Alt ∧
    (SignatureFromBase58 bitcoinBase58 (bitcoinBase58.Encode sampleBytes64)).2 = none ∧
    (SignatureFromBase58 bitcoinBase58 (bitcoinBase58.Encode sampleBytes64)).1.bytes.val =
      sampleBytes64.take 32 ∧
    SignatureFromBase58 bitcoinBase58 (bitcoinBase58.Encode sampleBytes64) =
      SignatureFromBase58 bitcoinBase58 (bitcoinBase58.Encode sampleBytes64Alt) := by
  have ha := bitcoinBase58_Decode_Encode sampleBytes64 (by decide)
  have hb := bitcoinBase58_Decode_Encode sampleBytes64Alt (by decide)
  have la : sampleBytes64.length = 64 := by decide
  have lb : sampleBytes64Alt.length = 64 := by decide
  have ra := SignatureFromBase58_of_length_64 bitcoinBase58 _ _ ha la
  have rb := SignatureFromBase58_of_length_64 bitcoinBase58 _ _ hb lb
  refine ⟨ha, hb, la, lb, by decide, ra.1, ra.2, ?_⟩
  apply Prod.ext
  · have e : (SignatureFromBase58 bitcoinBase58 (bitcoinBase58.Encode sampleBytes64)).1.bytes =
        (SignatureFromBase58 bitcoinBase58 (bitcoinBase58.Encode sampleBytes64Alt)).1.bytes := by
      apply Subtype.ext
      rw [ra.2, rb.2]
      decide
    cases h1 : (SignatureFromBase58 bitcoinBase58 (bitcoinBase58.Encode sampleBytes64)).1
    cases h2 : (SignatureFromBase58 bitcoinBase58 (bitcoinBase58.Encode sampleBytes64Alt)).1
    rw [h1, h2] at e
    simp only at e
    rw [e]
  · rw [ra.1, rb.1]

end Solana
